import Mathlib

/-!
Verification of the dlib `svm_rank_trainer` specification.

The repository ships the abstract contract header
`dlib/svm/svm_rank_trainer_abstract.h`; the executable model below follows
that header together with the design specification (ranking dataset, the
sort-based inversion-counting loss oracle, the cutting-plane optimizer and
the trainer orchestration).  Feature vectors are lists of rationals; the
machine's floating point arithmetic is modelled by exact rational
arithmetic.
-/

namespace RankSVM

/-- Feature vectors are dense lists of rationals. -/
abbrev Vec := List ℚ

/-- Pointwise addition; the shorter vector is implicitly padded with zeros. -/
def vadd : Vec → Vec → Vec
  | [], ys => ys
  | xs, [] => xs
  | x :: xs, y :: ys => (x + y) :: vadd xs ys

/-- Scalar multiplication of a vector. -/
def vscale (c : ℚ) (v : Vec) : Vec := v.map (fun x => c * x)

/-- Pointwise negation. -/
def vneg (v : Vec) : Vec := v.map (fun x => -x)

/-- Vector subtraction, via padded addition of the negation. -/
def vsub (xs ys : Vec) : Vec := vadd xs (vneg ys)

/-- Dot product; extra trailing entries of the longer vector are ignored
(they pair with implicit zeros). -/
def dot : Vec → Vec → ℚ
  | [], _ => 0
  | _, [] => 0
  | x :: xs, y :: ys => x * y + dot xs ys

/-- Sum of a list of vectors. -/
def vsum (l : List Vec) : Vec := l.foldr vadd []

/-- Modelled from the spec: a `ranking_pair` (declared in the missing
`ranking_tools.h`) holds one query's relevant and nonrelevant
feature vectors. -/
structure ranking_pair where
  relevant : List Vec
  nonrelevant : List Vec
deriving DecidableEq, Repr

/-- Number of (relevant, nonrelevant) ordering constraints a query
contributes. -/
def queryPairs (q : ranking_pair) : ℕ :=
  q.relevant.length * q.nonrelevant.length

/-- Total constraint count `P` over a dataset. -/
def totalPairs (samples : List ranking_pair) : ℕ :=
  (samples.map queryPairs).sum

/-- Modelled from the spec: `is_ranking_problem` (declared in the missing
`ranking_tools.h`) — the structural precondition of `train`: at least one
query has both a nonempty relevant set and a nonempty nonrelevant set,
i.e. `P > 0`. -/
def is_ranking_problem (samples : List ranking_pair) : Bool :=
  decide (0 < totalPairs samples)

/-- The error kinds of the error-handling design. -/
inductive TrainerError where
  | invalid_configuration
  | precondition_violation
deriving DecidableEq, Repr

/-- Modelled from the spec: the configuration state of `svm_rank_trainer`
(its implementation `svm_rank_trainer.h` is not in the sources). -/
structure svm_rank_trainer where
  C : ℚ
  eps : ℚ
  max_iterations : ℕ
  nonneg : Bool
  verbose : Bool
deriving DecidableEq, Repr

/-- The default-constructed trainer. -/
def default_trainer : svm_rank_trainer :=
  { C := 1, eps := 1 / 1000, max_iterations := 10000,
    nonneg := false, verbose := false }

/-- Modelled from the spec: the explicit constructor taking `C`; it fails
with an invalid-configuration error unless `C > 0`. -/
def mk_trainer_with_c (C : ℚ) : Except TrainerError svm_rank_trainer :=
  if 0 < C then .ok { default_trainer with C := C }
  else .error .invalid_configuration

/-- Query the regularization constant. -/
def svm_rank_trainer.get_c (t : svm_rank_trainer) : ℚ := t.C

/-- Query the convergence tolerance. -/
def svm_rank_trainer.get_epsilon (t : svm_rank_trainer) : ℚ := t.eps

/-- Query the iteration cap. -/
def svm_rank_trainer.get_max_iterations (t : svm_rank_trainer) : ℕ :=
  t.max_iterations

/-- Query the weight-sign constraint flag. -/
def svm_rank_trainer.learns_nonnegative_weights (t : svm_rank_trainer) : Bool :=
  t.nonneg

/-- Query the verbosity flag. -/
def svm_rank_trainer.is_verbose (t : svm_rank_trainer) : Bool := t.verbose

/-- Modelled from the spec: `set_c` fails with an invalid-configuration
error unless `C > 0`. -/
def svm_rank_trainer.set_c (t : svm_rank_trainer) (C : ℚ) :
    Except TrainerError svm_rank_trainer :=
  if 0 < C then .ok { t with C := C } else .error .invalid_configuration

/-- Modelled from the spec: `set_epsilon` fails with an
invalid-configuration error unless `eps > 0`. -/
def svm_rank_trainer.set_epsilon (t : svm_rank_trainer) (eps : ℚ) :
    Except TrainerError svm_rank_trainer :=
  if 0 < eps then .ok { t with eps := eps } else .error .invalid_configuration

/-- Set the iteration cap. -/
def svm_rank_trainer.set_max_iterations (t : svm_rank_trainer) (n : ℕ) :
    svm_rank_trainer := { t with max_iterations := n }

/-- Set the weight-sign constraint flag. -/
def svm_rank_trainer.set_learns_nonnegative_weights
    (t : svm_rank_trainer) (b : Bool) : svm_rank_trainer := { t with nonneg := b }

/-- Turn progress reporting on. -/
def svm_rank_trainer.be_verbose (t : svm_rank_trainer) : svm_rank_trainer :=
  { t with verbose := true }

/-- Turn progress reporting off. -/
def svm_rank_trainer.be_quiet (t : svm_rank_trainer) : svm_rank_trainer :=
  { t with verbose := false }

/-! ### Sorting by score, descending, with an explicit comparison count

The oracle sorts each query's tagged score list with merge sort.  The
functions are fuel-indexed so that they are structurally recursive and
evaluate inside the kernel; the second component of each result is the
number of score comparisons performed. -/

/-- Merge two lists sorted by first component descending; returns the
merged list and the number of comparisons. -/
def mergeF {β : Type} : ℕ → List (ℚ × β) → List (ℚ × β) → List (ℚ × β) × ℕ
  | 0, xs, ys => (xs ++ ys, 0)
  | _ + 1, [], ys => (ys, 0)
  | _ + 1, x :: xs, [] => (x :: xs, 0)
  | fuel + 1, a :: xs, b :: ys =>
    if b.1 ≤ a.1 then
      let r := mergeF fuel xs (b :: ys)
      (a :: r.1, r.2 + 1)
    else
      let r := mergeF fuel (a :: xs) ys
      (b :: r.1, r.2 + 1)

/-- Fueled merge sort by first component, descending.  Fuel bounds the
recursion depth; `l.length` is always enough. -/
def msortF {β : Type} : ℕ → List (ℚ × β) → List (ℚ × β) × ℕ
  | 0, l => (l, 0)
  | fuel + 1, l =>
    if l.length ≤ 1 then (l, 0)
    else
      let n := l.length / 2
      let r1 := msortF fuel (l.take n)
      let r2 := msortF fuel (l.drop n)
      let m := mergeF (r1.1.length + r2.1.length) r1.1 r2.1
      (m.1, r1.2 + r2.2 + m.2)

/-- Sort a tagged score list by score, descending. -/
def sortDesc {β : Type} (l : List (ℚ × β)) : List (ℚ × β) × ℕ :=
  msortF l.length l

/-- Descending order on tagged scores. -/
def ScoreDesc {β γ : Type} (a : ℚ × β) (b : ℚ × γ) : Prop := b.1 ≤ a.1

/-- Modelled from the spec: the single linear sweep of the inversion
counter (the missing `count_ranking_inversions`).  Both inputs are sorted
by score descending; each element `a` of the first list is paired with
`acc` plus the number of elements of the second list whose score is
strictly greater than `a`'s.  The second result component counts
comparisons. -/
def sweepF {β γ : Type} : ℕ → List (ℚ × β) → List (ℚ × γ) → ℕ →
    List ((ℚ × β) × ℕ) × ℕ
  | 0, _, _, _ => ([], 0)
  | _ + 1, [], _, _ => ([], 0)
  | fuel + 1, a :: A, [], acc =>
    let r := sweepF (γ := γ) fuel A [] acc
    ((a, acc) :: r.1, r.2)
  | fuel + 1, a :: A, b :: B, acc =>
    if a.1 < b.1 then
      let r := sweepF fuel (a :: A) B (acc + 1)
      (r.1, r.2 + 1)
    else
      let r := sweepF fuel A (b :: B) acc
      ((a, acc) :: r.1, r.2 + 1)

/-- A tagged score list sorted by score, descending. -/
def SortedDesc {β : Type} (l : List (ℚ × β)) : Prop :=
  l.Pairwise (fun a b => b.1 ≤ a.1)

theorem mergeF_perm {β : Type} (fuel : ℕ) (xs ys : List (ℚ × β)) :
    (mergeF fuel xs ys).1.Perm (xs ++ ys) := by
  induction fuel generalizing xs ys with
  | zero => exact List.Perm.refl _
  | succ fuel ih =>
    match xs, ys with
    | [], ys => simp [mergeF]
    | x :: xs, [] => simp [mergeF]
    | a :: xs, b :: ys =>
      by_cases h : b.1 ≤ a.1
      · simpa [mergeF, h] using (ih xs (b :: ys)).cons a
      · have h2 : (mergeF fuel (a :: xs) ys).1.Perm ((a :: xs) ++ ys) := ih _ _
        simpa [mergeF, h] using (h2.cons b).trans List.perm_middle.symm

theorem mergeF_cost {β : Type} (fuel : ℕ) (xs ys : List (ℚ × β)) :
    (mergeF fuel xs ys).2 ≤ fuel := by
  induction fuel generalizing xs ys with
  | zero => simp [mergeF]
  | succ fuel ih =>
    match xs, ys with
    | [], ys => simp [mergeF]
    | x :: xs, [] => simp [mergeF]
    | a :: xs, b :: ys =>
      by_cases h : b.1 ≤ a.1 <;>
        simp only [mergeF, h, if_true, if_false] <;>
        exact Nat.succ_le_succ (ih _ _)

theorem mergeF_sorted {β : Type} (fuel : ℕ) (xs ys : List (ℚ × β))
    (hf : xs.length + ys.length ≤ fuel)
    (hx : SortedDesc xs) (hy : SortedDesc ys) :
    SortedDesc (mergeF fuel xs ys).1 := by
  induction fuel generalizing xs ys with
  | zero =>
    have hx0 : xs = [] := List.length_eq_zero.mp (by omega)
    have hy0 : ys = [] := List.length_eq_zero.mp (by omega)
    subst hx0; subst hy0; simp [mergeF, SortedDesc]
  | succ fuel ih =>
    match xs, ys with
    | [], ys => simpa [mergeF] using hy
    | x :: xs, [] => simpa [mergeF] using hx
    | a :: xs, b :: ys =>
      obtain ⟨ha, hx'⟩ := List.pairwise_cons.mp hx
      obtain ⟨hb, hy'⟩ := List.pairwise_cons.mp hy
      by_cases h : b.1 ≤ a.1
      · simp only [mergeF, h, if_true]
        refine List.pairwise_cons.mpr ⟨?_, ?_⟩
        · intro z hz
          have hz' : z ∈ xs ++ b :: ys := (mergeF_perm fuel xs (b :: ys)).mem_iff.mp hz
          rcases List.mem_append.mp hz' with hz1 | hz2
          · exact ha z hz1
          · rcases List.mem_cons.mp hz2 with rfl | hz3
            · exact h
            · exact le_trans (hb z hz3) h
        · exact ih xs (b :: ys) (by simp at hf ⊢; omega) hx' hy
      · simp only [mergeF, h, if_false]
        have hab : a.1 ≤ b.1 := le_of_lt (lt_of_not_le h)
        refine List.pairwise_cons.mpr ⟨?_, ?_⟩
        · intro z hz
          have hz' : z ∈ (a :: xs) ++ ys := (mergeF_perm fuel (a :: xs) ys).mem_iff.mp hz
          rcases List.mem_append.mp hz' with hz1 | hz2
          · rcases List.mem_cons.mp hz1 with rfl | hz3
            · exact hab
            · exact le_trans (ha z hz3) hab
          · exact hb z hz2
        · exact ih (a :: xs) ys (by simp at hf ⊢; omega) hx hy'

theorem msortF_perm {β : Type} (fuel : ℕ) (l : List (ℚ × β))
    (h : l.length ≤ fuel) : (msortF fuel l).1.Perm l := by
  induction fuel generalizing l with
  | zero =>
    have : l = [] := List.length_eq_zero.mp (by omega)
    subst this; exact List.Perm.refl _
  | succ fuel ih =>
    by_cases hlen : l.length ≤ 1
    · simp [msortF, hlen]
    · simp only [msortF, hlen, if_false]
      have h2 : 2 ≤ l.length := by omega
      have ht : (l.take (l.length / 2)).length ≤ fuel := by
        simp [List.length_take]; omega
      have hd : (l.drop (l.length / 2)).length ≤ fuel := by
        simp [List.length_drop]; omega
      have p1 := ih (l.take (l.length / 2)) ht
      have p2 := ih (l.drop (l.length / 2)) hd
      have pm := mergeF_perm ((msortF fuel (l.take (l.length / 2))).1.length +
        (msortF fuel (l.drop (l.length / 2))).1.length)
        (msortF fuel (l.take (l.length / 2))).1 (msortF fuel (l.drop (l.length / 2))).1
      exact pm.trans ((p1.append p2).trans (by rw [List.take_append_drop]))

theorem msortF_sorted {β : Type} (fuel : ℕ) (l : List (ℚ × β))
    (h : l.length ≤ fuel) : SortedDesc (msortF fuel l).1 := by
  induction fuel generalizing l with
  | zero =>
    have : l = [] := List.length_eq_zero.mp (by omega)
    subst this; simp [msortF, SortedDesc]
  | succ fuel ih =>
    by_cases hlen : l.length ≤ 1
    · simp only [msortF, hlen, if_true]
      match l, hlen with
      | [], _ => simp [SortedDesc]
      | [x], _ => simp [SortedDesc]
    · simp only [msortF, hlen, if_false]
      have h2 : 2 ≤ l.length := by omega
      have ht : (l.take (l.length / 2)).length ≤ fuel := by
        simp [List.length_take]; omega
      have hd : (l.drop (l.length / 2)).length ≤ fuel := by
        simp [List.length_drop]; omega
      exact mergeF_sorted _ _ _ (le_refl _) (ih _ ht) (ih _ hd)

theorem msortF_length {β : Type} (fuel : ℕ) (l : List (ℚ × β))
    (h : l.length ≤ fuel) : (msortF fuel l).1.length = l.length :=
  (msortF_perm fuel l h).length_eq

theorem msortF_cost {β : Type} (fuel : ℕ) (l : List (ℚ × β))
    (h : l.length ≤ fuel) :
    (msortF fuel l).2 ≤ l.length * Nat.clog 2 l.length := by
  induction fuel generalizing l with
  | zero =>
    have : l = [] := List.length_eq_zero.mp (by omega)
    subst this; simp [msortF]
  | succ fuel ih =>
    by_cases hlen : l.length ≤ 1
    · simp [msortF, hlen]
    · simp only [msortF, hlen, if_false]
      have h2 : 2 ≤ l.length := by omega
      have htl : (l.take (l.length / 2)).length = l.length / 2 := by
        simp [List.length_take]; omega
      have hdl : (l.drop (l.length / 2)).length = l.length - l.length / 2 := by
        simp [List.length_drop]
      have ht : (l.take (l.length / 2)).length ≤ fuel := by omega
      have hd : (l.drop (l.length / 2)).length ≤ fuel := by
        rw [hdl]; omega
      have c1 := ih (l.take (l.length / 2)) ht
      have c2 := ih (l.drop (l.length / 2)) hd
      have cm := mergeF_cost ((msortF fuel (l.take (l.length / 2))).1.length +
        (msortF fuel (l.drop (l.length / 2))).1.length)
        (msortF fuel (l.take (l.length / 2))).1 (msortF fuel (l.drop (l.length / 2))).1
      have hlen12 : (msortF fuel (l.take (l.length / 2))).1.length +
          (msortF fuel (l.drop (l.length / 2))).1.length = l.length := by
        rw [msortF_length fuel _ ht, msortF_length fuel _ hd, htl, hdl]; omega
      have cm' := le_trans cm (le_of_eq hlen12)
      rw [htl] at c1
      rw [hdl] at c2
      -- the ceiling half and the clog recursion
      have hceil : l.length - l.length / 2 = (l.length + 1) / 2 := by omega
      rw [hceil] at c2
      have hrec : Nat.clog 2 l.length = Nat.clog 2 ((l.length + 1) / 2) + 1 := by
        have := Nat.clog_of_two_le (one_lt_two) h2
        simpa using this
      set k := Nat.clog 2 ((l.length + 1) / 2) with hk
      have hmono : Nat.clog 2 (l.length / 2) ≤ k := by
        apply Nat.clog_mono_right; omega
      have c1' : (msortF fuel (l.take (l.length / 2))).2 ≤ l.length / 2 * k :=
        le_trans c1 (Nat.mul_le_mul_left _ hmono)
      have c2' : (msortF fuel (l.drop (l.length / 2))).2 ≤ (l.length + 1) / 2 * k :=
        le_trans c2 (le_refl _)
      have hsplit : l.length / 2 + (l.length + 1) / 2 = l.length := by omega
      calc (msortF fuel (l.take (l.length / 2))).2 +
            (msortF fuel (l.drop (l.length / 2))).2 + _ ≤
          l.length / 2 * k + (l.length + 1) / 2 * k + l.length :=
            Nat.add_le_add (Nat.add_le_add c1' c2') cm'
        _ = l.length * k + l.length := by rw [← Nat.add_mul, hsplit]
        _ = l.length * (k + 1) := by ring
        _ = l.length * Nat.clog 2 l.length := by rw [hrec]

theorem sweepF_cost {β γ : Type} (fuel : ℕ) (A : List (ℚ × β))
    (B : List (ℚ × γ)) (acc : ℕ) : (sweepF fuel A B acc).2 ≤ fuel := by
  induction fuel generalizing A B acc with
  | zero => simp [sweepF]
  | succ fuel ih =>
    match A, B with
    | [], B => simp [sweepF]
    | a :: A, [] =>
      simpa [sweepF] using le_trans (ih A [] acc) (Nat.le_succ _)
    | a :: A, b :: B =>
      by_cases h : a.1 < b.1 <;>
        simp only [sweepF, h, if_true, if_false] <;>
        exact Nat.succ_le_succ (ih _ _ _)

theorem sweepF_eq {β γ : Type} (fuel : ℕ) (A : List (ℚ × β))
    (B : List (ℚ × γ)) (acc : ℕ)
    (hf : A.length + B.length ≤ fuel) (hA : SortedDesc A) (hB : SortedDesc B) :
    (sweepF fuel A B acc).1 =
      A.map (fun a => (a, acc + B.countP (fun b => decide (a.1 < b.1)))) := by
  induction fuel generalizing A B acc with
  | zero =>
    have : A = [] := List.length_eq_zero.mp (by omega)
    subst this; simp [sweepF]
  | succ fuel ih =>
    match A, B with
    | [], B => simp [sweepF]
    | a :: A, [] =>
      obtain ⟨ha, hA'⟩ := List.pairwise_cons.mp hA
      have := ih A [] acc (by simp at hf ⊢; omega) hA' (by simp [SortedDesc])
      simp only [sweepF, this]
      simp
    | a :: A, b :: B =>
      obtain ⟨ha, hA'⟩ := List.pairwise_cons.mp hA
      obtain ⟨hb, hB'⟩ := List.pairwise_cons.mp hB
      by_cases h : a.1 < b.1
      · simp only [sweepF, h, if_true]
        have := ih (a :: A) B (acc + 1) (by simp at hf ⊢; omega) hA hB'
        rw [this]
        apply List.map_congr_left
        intro x hx
        have hxb : x.1 < b.1 := by
          rcases List.mem_cons.mp hx with rfl | hx'
          · exact h
          · exact lt_of_le_of_lt (ha x hx') h
        simp only [List.countP_cons, hxb, decide_True, if_true, Prod.mk.injEq,
          true_and]
        omega
      · simp only [sweepF, h, if_false]
        have := ih A (b :: B) acc (by simp at hf ⊢; omega) hA' hB
        rw [this]
        have hcnt : (b :: B).countP (fun z => decide (a.1 < z.1)) = 0 := by
          apply List.countP_eq_zero.mpr
          intro z hz
          rcases List.mem_cons.mp hz with rfl | hz'
          · simpa using not_lt.mpr (not_lt.mp h)
          · simpa using not_lt.mpr (le_trans (hb z hz') (not_lt.mp h))
        simp [hcnt]

/-! ### Entrywise view of vectors

Vectors of different physical lengths represent the same mathematical
vector when they agree entrywise (missing entries are zero).  `entry v i`
reads coordinate `i`. -/

/-- Coordinate `i` of a vector; zero beyond the physical length. -/
def entry (v : Vec) (i : ℕ) : ℚ := v.getD i 0

theorem entry_nil (i : ℕ) : entry [] i = 0 := by simp [entry]

theorem entry_vadd (x y : Vec) (i : ℕ) :
    entry (vadd x y) i = entry x i + entry y i := by
  induction x generalizing y i with
  | nil => simp [vadd, entry]
  | cons a xs ih =>
    cases y with
    | nil => simp [vadd, entry]
    | cons b ys =>
      cases i with
      | zero => simp [vadd, entry]
      | succ j => simpa [vadd, entry] using ih ys j

theorem entry_vscale (c : ℚ) (v : Vec) (i : ℕ) :
    entry (vscale c v) i = c * entry v i := by
  induction v generalizing i with
  | nil => simp [vscale, entry]
  | cons a xs ih =>
    cases i with
    | zero => simp [vscale, entry]
    | succ j => simpa [vscale, entry] using ih j

theorem entry_vneg (v : Vec) (i : ℕ) : entry (vneg v) i = -entry v i := by
  induction v generalizing i with
  | nil => simp [vneg, entry]
  | cons a xs ih =>
    cases i with
    | zero => simp [vneg, entry]
    | succ j => simpa [vneg, entry] using ih j

theorem entry_vsub (x y : Vec) (i : ℕ) :
    entry (vsub x y) i = entry x i - entry y i := by
  rw [vsub, entry_vadd, entry_vneg]; ring

theorem vsum_cons (v : Vec) (l : List Vec) : vsum (v :: l) = vadd v (vsum l) :=
  rfl

theorem entry_vsum {α : Type} (l : List α) (f : α → Vec) (i : ℕ) :
    entry (vsum (l.map f)) i = (l.map (fun x => entry (f x) i)).sum := by
  induction l with
  | nil => simp [vsum, entry]
  | cons a l ih => simp [vsum_cons, entry_vadd, ih]

/-! ### Exact vector identities used for the dataset-doubling invariant -/

theorem vadd_assoc (xs ys zs : Vec) :
    vadd (vadd xs ys) zs = vadd xs (vadd ys zs) := by
  induction xs generalizing ys zs with
  | nil => cases ys <;> cases zs <;> simp [vadd]
  | cons x xs ih =>
    cases ys with
    | nil => simp [vadd]
    | cons y ys =>
      cases zs with
      | nil => simp [vadd]
      | cons z zs => simp [vadd, ih, add_assoc]

theorem vsum_append (l₁ l₂ : List Vec) :
    vsum (l₁ ++ l₂) = vadd (vsum l₁) (vsum l₂) := by
  induction l₁ with
  | nil => simp [vsum, vadd]
  | cons a l ih => simp [List.cons_append, vsum_cons, ih, vadd_assoc]

theorem vadd_self (v : Vec) : vadd v v = vscale 2 v := by
  induction v with
  | nil => simp [vadd, vscale]
  | cons a xs ih =>
    simp only [vadd, vscale, List.map_cons, List.cons.injEq]
    exact ⟨by ring, by simpa [vscale] using ih⟩

theorem vscale_vscale (a b : ℚ) (v : Vec) :
    vscale a (vscale b v) = vscale (a * b) v := by
  simp [vscale, List.map_map, Function.comp, mul_assoc]

/-! ### The loss/subgradient oracle

Modelled from the spec: the oracle of `svm_rank_trainer.h` is missing from
the sources; per query it tags every vector with its current score
(relevant scores shifted down by the unit margin), sorts by score
descending and counts margin violations with the linear sweep, exactly as
the design describes for `count_ranking_inversions`. -/

/-- Relevant vectors tagged with their margin-shifted scores. -/
def taggedRel (w : Vec) (q : ranking_pair) : List (ℚ × Vec) :=
  q.relevant.map (fun v => (dot w v - 1, v))

/-- Nonrelevant vectors tagged with their scores. -/
def taggedNonrel (w : Vec) (q : ranking_pair) : List (ℚ × Vec) :=
  q.nonrelevant.map (fun v => (dot w v, v))

/-- Negate the scores of a tagged list (used to count the symmetric side
with the same sweep). -/
def negTag (l : List (ℚ × Vec)) : List (ℚ × Vec) :=
  l.map (fun p => (-p.1, p.2))

/-- Modelled from the spec: `count_ranking_inversions` (missing
`ranking_tools.h`): sort both tagged lists by score descending, then one
linear sweep pairs every element of `A` with the number of elements of `B`
whose score strictly exceeds its own.  Also returns the number of score
comparisons spent. -/
def count_ranking_inversions (A B : List (ℚ × Vec)) :
    List ((ℚ × Vec) × ℕ) × ℕ :=
  let sa := sortDesc A
  let sb := sortDesc B
  let sw := sweepF (sa.1.length + sb.1.length) sa.1 sb.1 0
  (sw.1, sa.2 + sb.2 + sw.2)

/-- Violation counts for the relevant side of a query. -/
def relCounts (w : Vec) (q : ranking_pair) : List ((ℚ × Vec) × ℕ) × ℕ :=
  count_ranking_inversions (taggedRel w q) (taggedNonrel w q)

/-- Violation counts for the nonrelevant side of a query (same sweep on
negated scores). -/
def nonrelCounts (w : Vec) (q : ranking_pair) : List ((ℚ × Vec) × ℕ) × ℕ :=
  count_ranking_inversions (negTag (taggedNonrel w q)) (negTag (taggedRel w q))

/-- Sort-based hinge loss of one query. -/
def queryLossFast (w : Vec) (q : ranking_pair) : ℚ :=
  ((relCounts w q).1.map (fun p => (p.2 : ℚ) * (-p.1.1))).sum +
    ((nonrelCounts w q).1.map (fun p => (p.2 : ℚ) * (-p.1.1))).sum

/-- Sort-based margin-violation count of one query. -/
def queryViolFast (w : Vec) (q : ranking_pair) : ℕ :=
  ((relCounts w q).1.map (fun p => p.2)).sum

/-- Sort-based subgradient of one query: each violated pair contributes
the nonrelevant vector minus the relevant vector, accumulated through the
per-element counts. -/
def querySubgradFast (w : Vec) (q : ranking_pair) : Vec :=
  vadd (vsum ((nonrelCounts w q).1.map (fun p => vscale (p.2 : ℚ) p.1.2)))
    (vneg (vsum ((relCounts w q).1.map (fun p => vscale (p.2 : ℚ) p.1.2))))

/-- Comparisons spent by the oracle on one query. -/
def queryCost (w : Vec) (q : ranking_pair) : ℕ :=
  (relCounts w q).2 + (nonrelCounts w q).2

/-- Brute-force pairwise hinge loss of one query. -/
def queryLossBrute (w : Vec) (q : ranking_pair) : ℚ :=
  (q.relevant.map (fun r =>
    (q.nonrelevant.map (fun s =>
      if dot w r - dot w s < 1 then 1 - (dot w r - dot w s) else 0)).sum)).sum

/-- Brute-force pairwise violation count of one query. -/
def queryViolBrute (w : Vec) (q : ranking_pair) : ℕ :=
  (q.relevant.map (fun r =>
    q.nonrelevant.countP (fun s => decide (dot w r - dot w s < 1)))).sum

/-- Brute-force pairwise subgradient of one query. -/
def querySubgradBrute (w : Vec) (q : ranking_pair) : Vec :=
  vsum (q.relevant.map (fun r =>
    vsum (q.nonrelevant.map (fun s =>
      if dot w r - dot w s < 1 then vsub s r else []))))

/-! ### Double-sum exchange: pairwise sums versus per-element counts -/

theorem sum_if_const {α : Type} (p : α → Prop) [DecidablePred p]
    (l : List α) (c : ℚ) :
    (l.map (fun x => if p x then c else 0)).sum =
      (l.countP (fun x => decide (p x)) : ℚ) * c := by
  induction l with
  | nil => simp
  | cons a l ih =>
    by_cases h : p a
    · simp only [List.map_cons, List.sum_cons, List.countP_cons, h, if_true,
        decide_True, ih]
      push_cast
      ring
    · simp only [List.map_cons, List.sum_cons, List.countP_cons, h, if_false,
        decide_False, ih]
      push_cast
      ring

theorem sum_swap {α β : Type} (R : List α) (N : List β) (F : α → β → ℚ) :
    (R.map (fun r => (N.map (F r)).sum)).sum =
      (N.map (fun n => (R.map (fun r => F r n)).sum)).sum := by
  induction R with
  | nil => simp
  | cons r R ih =>
    simp only [List.map_cons, List.sum_cons]
    rw [List.sum_map_add, ih]

theorem double_sum_exchange {α β : Type} (R : List α) (N : List β)
    (p : α → β → Prop) [∀ r n, Decidable (p r n)] (f : α → ℚ) (g : β → ℚ) :
    (R.map (fun r =>
      (N.map (fun n => if p r n then f r + g n else 0)).sum)).sum =
      (R.map (fun r =>
        (N.countP (fun n => decide (p r n)) : ℚ) * f r)).sum +
        (N.map (fun n =>
          (R.countP (fun r => decide (p r n)) : ℚ) * g n)).sum := by
  have hsplit : (R.map (fun r =>
      (N.map (fun n => if p r n then f r + g n else 0)).sum)).sum =
      (R.map (fun r => (N.map (fun n => if p r n then f r else 0)).sum)).sum +
        (R.map (fun r => (N.map (fun n => if p r n then g n else 0)).sum)).sum := by
    rw [← List.sum_map_add]
    apply congrArg List.sum
    apply List.map_congr_left
    intro r _
    rw [← List.sum_map_add]
    apply congrArg List.sum
    apply List.map_congr_left
    intro n _
    by_cases h : p r n <;> simp [h]
  rw [hsplit]
  congr 1
  · apply congrArg List.sum
    apply List.map_congr_left
    intro r _
    exact sum_if_const (p r) N (f r)
  · rw [sum_swap]
    apply congrArg List.sum
    apply List.map_congr_left
    intro n _
    exact sum_if_const (fun r => p r n) R (g n)

/-- The sweep result of `count_ranking_inversions`: each element of the
sorted first list is paired with the number of second-list elements whose
score strictly exceeds its own. -/
theorem count_ranking_inversions_fst (A B : List (ℚ × Vec)) :
    (count_ranking_inversions A B).1 =
      (sortDesc A).1.map
        (fun a => (a, B.countP (fun b => decide (a.1 < b.1)))) := by
  have hA : SortedDesc (sortDesc A).1 := msortF_sorted _ _ (le_refl _)
  have hB : SortedDesc (sortDesc B).1 := msortF_sorted _ _ (le_refl _)
  have h := sweepF_eq ((sortDesc A).1.length + (sortDesc B).1.length)
    (sortDesc A).1 (sortDesc B).1 0 (le_refl _) hA hB
  simp only [count_ranking_inversions, h]
  apply List.map_congr_left
  intro a _
  have hperm : (sortDesc B).1.Perm B := msortF_perm _ _ (le_refl _)
  rw [hperm.countP_eq]
  simp

/-- Sums of any function of (element, count) over the sweep result may be
taken over the unsorted input list. -/
theorem fast_sum_q (A B : List (ℚ × Vec)) (f : (ℚ × Vec) → ℕ → ℚ) :
    ((count_ranking_inversions A B).1.map (fun p => f p.1 p.2)).sum =
      (A.map (fun a => f a (B.countP (fun b => decide (a.1 < b.1))))).sum := by
  rw [count_ranking_inversions_fst, List.map_map]
  exact ((msortF_perm _ A (le_refl _)).map _).sum_eq

/-- Natural-number variant of `fast_sum_q`. -/
theorem fast_sum_n (A B : List (ℚ × Vec)) (f : (ℚ × Vec) → ℕ → ℕ) :
    ((count_ranking_inversions A B).1.map (fun p => f p.1 p.2)).sum =
      (A.map (fun a => f a (B.countP (fun b => decide (a.1 < b.1))))).sum := by
  rw [count_ranking_inversions_fst, List.map_map]
  exact ((msortF_perm _ A (le_refl _)).map _).sum_eq

/-- The margin-violation predicate of a (relevant, nonrelevant) pair. -/
def violates (w : Vec) (r s : Vec) : Prop := dot w r - 1 < dot w s

instance (w r s : Vec) : Decidable (violates w r s) := by
  unfold violates; infer_instance

/-- Per-relevant-vector violation count, computed on the raw lists. -/
theorem relCounts_counts (w : Vec) (q : ranking_pair)
    (f : (ℚ × Vec) → ℕ → ℚ) :
    ((relCounts w q).1.map (fun p => f p.1 p.2)).sum =
      (q.relevant.map (fun r => f (dot w r - 1, r)
        (q.nonrelevant.countP (fun s => decide (violates w r s))))).sum := by
  rw [relCounts, fast_sum_q, taggedRel, List.map_map]
  apply congrArg List.sum
  apply List.map_congr_left
  intro r _
  simp only [Function.comp]
  congr 1
  rw [taggedNonrel, List.countP_map]
  apply List.countP_congr
  intro s _
  simp [violates]

/-- Per-nonrelevant-vector violation count, computed on the raw lists. -/
theorem nonrelCounts_counts (w : Vec) (q : ranking_pair)
    (f : (ℚ × Vec) → ℕ → ℚ) :
    ((nonrelCounts w q).1.map (fun p => f p.1 p.2)).sum =
      (q.nonrelevant.map (fun s => f (-dot w s, s)
        (q.relevant.countP (fun r => decide (violates w r s))))).sum := by
  rw [nonrelCounts, fast_sum_q]
  simp only [negTag, taggedNonrel, taggedRel, List.map_map]
  apply congrArg List.sum
  apply List.map_congr_left
  intro s _
  simp only [Function.comp]
  congr 1
  rw [List.countP_map]
  apply List.countP_congr
  intro r _
  simp only [Function.comp, decide_eq_true_eq]
  unfold violates
  constructor <;> intro h <;> linarith

/-- Negation moves through a mapped sum. -/
theorem sum_map_neg {α : Type} (l : List α) (f : α → ℚ) :
    (l.map (fun x => -f x)).sum = -(l.map f).sum := by
  induction l with
  | nil => simp
  | cons a l ih => simp [ih]; ring

/-- The sort-based per-query loss equals the brute-force pairwise hinge
loss. -/
theorem queryLossFast_eq_brute (w : Vec) (q : ranking_pair) :
    queryLossFast w q = queryLossBrute w q := by
  have hfast : queryLossFast w q =
      (q.relevant.map (fun r =>
        ((q.nonrelevant.countP (fun s => decide (violates w r s))) : ℚ) *
          (1 - dot w r))).sum +
      (q.nonrelevant.map (fun s =>
        ((q.relevant.countP (fun r => decide (violates w r s))) : ℚ) *
          (dot w s))).sum := by
    rw [queryLossFast]
    congr 1
    · rw [relCounts_counts w q (fun a c => (c : ℚ) * (-a.1))]
      apply congrArg List.sum
      apply List.map_congr_left
      intro r _
      ring
    · rw [nonrelCounts_counts w q (fun a c => (c : ℚ) * (-a.1))]
      apply congrArg List.sum
      apply List.map_congr_left
      intro s _
      ring
  have hbrute : queryLossBrute w q =
      (q.relevant.map (fun r =>
        (q.nonrelevant.map (fun s =>
          if violates w r s then (1 - dot w r) + dot w s else 0)).sum)).sum := by
    rw [queryLossBrute]
    apply congrArg List.sum
    apply List.map_congr_left
    intro r _
    apply congrArg List.sum
    apply List.map_congr_left
    intro s _
    rcases lt_or_le (dot w r - dot w s) 1 with h | h
    · rw [if_pos h, if_pos (show violates w r s by unfold violates; linarith)]
      ring
    · rw [if_neg (not_lt.mpr h),
        if_neg (show ¬ violates w r s by unfold violates; intro hc; linarith)]
  rw [hfast, hbrute,
    double_sum_exchange q.relevant q.nonrelevant (violates w)
      (fun r => 1 - dot w r) (fun s => dot w s)]

/-- Natural-number counterpart of `relCounts_counts`. -/
theorem relCounts_counts_n (w : Vec) (q : ranking_pair)
    (f : (ℚ × Vec) → ℕ → ℕ) :
    ((relCounts w q).1.map (fun p => f p.1 p.2)).sum =
      (q.relevant.map (fun r => f (dot w r - 1, r)
        (q.nonrelevant.countP (fun s => decide (violates w r s))))).sum := by
  rw [relCounts, fast_sum_n, taggedRel, List.map_map]
  apply congrArg List.sum
  apply List.map_congr_left
  intro r _
  simp only [Function.comp]
  congr 1
  rw [taggedNonrel, List.countP_map]
  apply List.countP_congr
  intro s _
  simp [violates]

/-- The sort-based per-query violation count equals the brute-force
pairwise count. -/
theorem queryViolFast_eq_brute (w : Vec) (q : ranking_pair) :
    queryViolFast w q = queryViolBrute w q := by
  rw [queryViolFast, relCounts_counts_n w q (fun a c => c), queryViolBrute]
  apply congrArg List.sum
  apply List.map_congr_left
  intro r _
  apply List.countP_congr
  intro s _
  simp only [decide_eq_true_eq]
  unfold violates
  constructor <;> intro h <;> linarith

/-- The sort-based per-query subgradient equals the brute-force pairwise
subgradient, entrywise. -/
theorem querySubgrad_entry_eq (w : Vec) (q : ranking_pair) (i : ℕ) :
    entry (querySubgradFast w q) i = entry (querySubgradBrute w q) i := by
  have hfast : entry (querySubgradFast w q) i =
      (q.nonrelevant.map (fun s =>
        ((q.relevant.countP (fun r => decide (violates w r s))) : ℚ) *
          entry s i)).sum -
      (q.relevant.map (fun r =>
        ((q.nonrelevant.countP (fun s => decide (violates w r s))) : ℚ) *
          entry r i)).sum := by
    rw [querySubgradFast, entry_vadd, entry_vneg, entry_vsum, entry_vsum]
    have h1 : ((nonrelCounts w q).1.map
        (fun p => entry (vscale (p.2 : ℚ) p.1.2) i)).sum =
        ((nonrelCounts w q).1.map
          (fun p => (p.2 : ℚ) * entry p.1.2 i)).sum := by
      apply congrArg List.sum
      apply List.map_congr_left
      intro p _
      exact entry_vscale _ _ _
    have h2 : ((relCounts w q).1.map
        (fun p => entry (vscale (p.2 : ℚ) p.1.2) i)).sum =
        ((relCounts w q).1.map
          (fun p => (p.2 : ℚ) * entry p.1.2 i)).sum := by
      apply congrArg List.sum
      apply List.map_congr_left
      intro p _
      exact entry_vscale _ _ _
    rw [h1, h2, nonrelCounts_counts w q (fun a c => (c : ℚ) * entry a.2 i),
      relCounts_counts w q (fun a c => (c : ℚ) * entry a.2 i)]
    ring
  have hbrute : entry (querySubgradBrute w q) i =
      (q.relevant.map (fun r =>
        (q.nonrelevant.map (fun s =>
          if violates w r s then (-entry r i) + entry s i else 0)).sum)).sum := by
    rw [querySubgradBrute, entry_vsum]
    apply congrArg List.sum
    apply List.map_congr_left
    intro r _
    rw [entry_vsum]
    apply congrArg List.sum
    apply List.map_congr_left
    intro s _
    rcases lt_or_le (dot w r - dot w s) 1 with h | h
    · rw [if_pos h, if_pos (show violates w r s by unfold violates; linarith)]
      rw [entry_vsub]
      ring
    · rw [if_neg (not_lt.mpr h),
        if_neg (show ¬ violates w r s by unfold violates; intro hc; linarith),
        entry_nil]
  rw [hfast, hbrute,
    double_sum_exchange q.relevant q.nonrelevant (violates w)
      (fun r => -entry r i) (fun s => entry s i)]
  have hneg : (q.relevant.map (fun r =>
      ((q.nonrelevant.countP (fun s => decide (violates w r s))) : ℚ) *
        (-entry r i))).sum =
      -(q.relevant.map (fun r =>
        ((q.nonrelevant.countP (fun s => decide (violates w r s))) : ℚ) *
          entry r i)).sum := by
    rw [← sum_map_neg]
    apply congrArg List.sum
    apply List.map_congr_left
    intro r _
    ring
  rw [hneg]
  ring

/-! ### Comparison-count bounds: the oracle is O(N log N) -/

/-- Number of feature vectors in one query. -/
def queryVectors (q : ranking_pair) : ℕ :=
  q.relevant.length + q.nonrelevant.length

/-- Total number of feature vectors in a dataset. -/
def totalVectors (samples : List ranking_pair) : ℕ :=
  (samples.map queryVectors).sum

/-- Comparisons spent by the oracle over a whole dataset. -/
def oracleCost (samples : List ranking_pair) (w : Vec) : ℕ :=
  (samples.map (queryCost w)).sum

theorem count_ranking_inversions_cost (A B : List (ℚ × Vec)) :
    (count_ranking_inversions A B).2 ≤
      A.length * Nat.clog 2 A.length + B.length * Nat.clog 2 B.length +
        (A.length + B.length) := by
  have c1 := msortF_cost A.length A (le_refl _)
  have c2 := msortF_cost B.length B (le_refl _)
  have c3 := sweepF_cost ((sortDesc A).1.length + (sortDesc B).1.length)
    (sortDesc A).1 (sortDesc B).1 0
  have l1 : (sortDesc A).1.length = A.length := msortF_length _ _ (le_refl _)
  have l2 : (sortDesc B).1.length = B.length := msortF_length _ _ (le_refl _)
  have c3' := le_trans c3 (le_of_eq (by rw [l1, l2]))
  exact Nat.add_le_add (Nat.add_le_add c1 c2) c3'

theorem queryCost_le (w : Vec) (q : ranking_pair) :
    queryCost w q ≤
      2 * queryVectors q * (Nat.clog 2 (queryVectors q) + 1) := by
  have lR : (taggedRel w q).length = q.relevant.length := by
    simp [taggedRel]
  have lS : (taggedNonrel w q).length = q.nonrelevant.length := by
    simp [taggedNonrel]
  have lR' : (negTag (taggedRel w q)).length = q.relevant.length := by
    simp [negTag, taggedRel]
  have lS' : (negTag (taggedNonrel w q)).length = q.nonrelevant.length := by
    simp [negTag, taggedNonrel]
  have h1 := count_ranking_inversions_cost (taggedRel w q) (taggedNonrel w q)
  have h2 := count_ranking_inversions_cost (negTag (taggedNonrel w q))
    (negTag (taggedRel w q))
  rw [lR, lS] at h1
  rw [lS', lR'] at h2
  set R := q.relevant.length
  set S := q.nonrelevant.length
  have hn : queryVectors q = R + S := rfl
  have hmR : Nat.clog 2 R ≤ Nat.clog 2 (R + S) :=
    Nat.clog_mono_right 2 (Nat.le_add_right _ _)
  have hmS : Nat.clog 2 S ≤ Nat.clog 2 (R + S) :=
    Nat.clog_mono_right 2 (Nat.le_add_left _ _)
  have hb : R * Nat.clog 2 R + S * Nat.clog 2 S + (R + S) ≤
      (R + S) * Nat.clog 2 (R + S) + (R + S) := by
    have := Nat.add_le_add (Nat.mul_le_mul_left R hmR) (Nat.mul_le_mul_left S hmS)
    rw [← Nat.add_mul] at this
    omega
  have hb2 : S * Nat.clog 2 S + R * Nat.clog 2 R + (S + R) ≤
      (R + S) * Nat.clog 2 (R + S) + (R + S) := by omega
  have htotal := Nat.add_le_add (le_trans h1 hb) (le_trans h2 hb2)
  rw [queryCost, relCounts, nonrelCounts, hn]
  calc (count_ranking_inversions (taggedRel w q) (taggedNonrel w q)).2 +
        (count_ranking_inversions (negTag (taggedNonrel w q))
          (negTag (taggedRel w q))).2 ≤
      2 * ((R + S) * Nat.clog 2 (R + S) + (R + S)) := by omega
    _ = 2 * (R + S) * (Nat.clog 2 (R + S) + 1) := by ring

theorem oracleCost_le (samples : List ranking_pair) (w : Vec) :
    oracleCost samples w ≤
      2 * totalVectors samples * (Nat.clog 2 (totalVectors samples) + 1) := by
  induction samples with
  | nil => simp [oracleCost, totalVectors]
  | cons q qs ih =>
    have hq := queryCost_le w q
    have hN : totalVectors (q :: qs) = queryVectors q + totalVectors qs := by
      simp [totalVectors]
    have hm1 : Nat.clog 2 (queryVectors q) ≤
        Nat.clog 2 (totalVectors (q :: qs)) := by
      rw [hN]; exact Nat.clog_mono_right 2 (Nat.le_add_right _ _)
    have hm2 : Nat.clog 2 (totalVectors qs) ≤
        Nat.clog 2 (totalVectors (q :: qs)) := by
      rw [hN]; exact Nat.clog_mono_right 2 (Nat.le_add_left _ _)
    have h1 : queryCost w q ≤
        2 * queryVectors q * (Nat.clog 2 (totalVectors (q :: qs)) + 1) :=
      le_trans hq (Nat.mul_le_mul_left _ (by omega))
    have h2 : oracleCost qs w ≤
        2 * totalVectors qs * (Nat.clog 2 (totalVectors (q :: qs)) + 1) :=
      le_trans ih (Nat.mul_le_mul
        (Nat.mul_le_mul_left 2 (le_refl _)) (by omega))
    have hsum : oracleCost (q :: qs) w = queryCost w q + oracleCost qs w := by
      simp [oracleCost]
    rw [hsum, hN]
    calc queryCost w q + oracleCost qs w ≤
        2 * queryVectors q * (Nat.clog 2 (totalVectors (q :: qs)) + 1) +
          2 * totalVectors qs * (Nat.clog 2 (totalVectors (q :: qs)) + 1) :=
          Nat.add_le_add h1 h2
      _ = 2 * (queryVectors q + totalVectors qs) *
            (Nat.clog 2 (totalVectors (q :: qs)) + 1) := by ring
      _ = 2 * (queryVectors q + totalVectors qs) *
            (Nat.clog 2 (queryVectors q + totalVectors qs) + 1) := by rw [hN]

/-! ### The cutting-plane optimizer and the trainer -/

/-- Value of a cutting plane at `w`. -/
def planeVal (w : Vec) (p : Vec × ℚ) : ℚ := dot p.1 w + p.2

/-- Piecewise-linear surrogate risk: the maximum of the active planes and
zero. -/
def surrogateRisk (planes : List (Vec × ℚ)) (w : Vec) : ℚ :=
  (planes.map (planeVal w)).foldr max 0

/-- Squared euclidean norm. -/
def sqnorm (w : Vec) : ℚ := dot w w

/-- Surrogate objective of the inner QP; a lower bound of the true
objective at every point. -/
def surrogateObj (C : ℚ) (planes : List (Vec × ℚ)) (w : Vec) : ℚ :=
  sqnorm w / 2 + C * surrogateRisk planes w

/-- True regularized objective, through the oracle. -/
def trueObj (C : ℚ) (oracleF : Vec → ℚ × Vec) (w : Vec) : ℚ :=
  sqnorm w / 2 + C * (oracleF w).1

/-- Weight vector determined by the dual coefficients of the planes. -/
def combo (alphas : List ℚ) (planes : List (Vec × ℚ)) : Vec :=
  vsum (List.zipWith (fun a p => vscale a p.1) alphas planes)

/-- Clamp `x` into `[lo, hi]`. -/
def clampQ (x lo hi : ℚ) : ℚ := max lo (min x hi)

/-- Modelled from the spec: one coordinate update of the dual
coordinate-ascent QP subroutine (the spec fixes only the QP's contract,
not its numerical method). -/
def updateAlpha (C : ℚ) (planes : List (Vec × ℚ)) (alphas : List ℚ)
    (j : ℕ) : List ℚ :=
  match planes[j]?, alphas[j]? with
  | some p, some aj =>
    let cap := C - (alphas.sum - aj)
    let qj := dot p.1 p.1
    let g := p.2 - (dot (combo alphas planes) p.1 - aj * qj)
    let na := if qj = 0 then (if 0 < p.2 then max cap 0 else 0)
      else clampQ (g / qj) 0 cap
    alphas.set j na
  | _, _ => alphas

/-- One full coordinate-ascent pass over all planes. -/
def sweepAlphas (C : ℚ) (planes : List (Vec × ℚ))
    (alphas : List ℚ) : List ℚ :=
  (List.range planes.length).foldl (updateAlpha C planes) alphas

/-- Number of coordinate-ascent passes per QP resolve. -/
def qpPasses : ℕ := 4

/-- Iterate a dual update a fixed number of times. -/
def iterQP (f : List ℚ → List ℚ) : ℕ → List ℚ → List ℚ
  | 0, a => a
  | k + 1, a => iterQP f k (f a)

/-- Modelled from the spec: the QP resolve step.  In nonnegative-weights
mode the box constraint is enforced on the returned iterate. -/
def solveQP (C : ℚ) (nonneg : Bool) (planes : List (Vec × ℚ)) : Vec :=
  let alphas := iterQP (sweepAlphas C planes) qpPasses
    (List.replicate planes.length 0)
  let w := vscale (-1) (combo alphas planes)
  if nonneg then w.map (fun x => max x 0) else w

/-- Modelled from the spec: the cutting-plane loop of the missing `oca`
optimizer.  Each iteration queries the oracle at the current iterate, adds
the resulting plane, resolves the QP, and stops once the gap between the
true objective and the surrogate lower bound is at most `eps`, or when the
fuel (iteration cap) runs out. -/
def ocaLoop (C eps : ℚ) (nonneg : Bool) (oracleF : Vec → ℚ × Vec) :
    ℕ → Vec → List (Vec × ℚ) → Vec
  | 0, w, _ => w
  | fuel + 1, w, planes =>
    let r := oracleF w
    let planes' := planes ++ [(r.2, r.1 - dot r.2 w)]
    let w' := solveQP C nonneg planes'
    if trueObj C oracleF w' - surrogateObj C planes' w' ≤ eps then w'
    else ocaLoop C eps nonneg oracleF fuel w' planes'

/-- Run the optimizer from the zero vector with an empty plane set. -/
def oca_solve (C eps : ℚ) (nonneg : Bool) (maxIter : ℕ)
    (oracleF : Vec → ℚ × Vec) : Vec :=
  ocaLoop C eps nonneg oracleF maxIter [] []

/-- Modelled from the spec: the loss/subgradient oracle over the whole
dataset, normalized by `1/P`. -/
def oracle (samples : List ranking_pair) (w : Vec) : ℚ × Vec :=
  ((samples.map (queryLossFast w)).sum / (totalPairs samples : ℚ),
    vscale (1 / (totalPairs samples : ℚ))
      (vsum (samples.map (querySubgradFast w))))

/-- Modelled from the header: a linear decision function. -/
structure decision_function where
  alpha : List ℚ
  basis_vectors : List Vec
  b : ℚ
deriving DecidableEq, Repr

/-- Evaluate the decision function at a sample. -/
def decision_function.eval (F : decision_function) (x : Vec) : ℚ :=
  (List.zipWith (fun a v => a * dot v x) F.alpha F.basis_vectors).sum - F.b

/-- Package a weight vector into the returned decision function. -/
def mkModel (w : Vec) : decision_function :=
  { alpha := [1], basis_vectors := [w], b := 0 }

/-- Modelled from the header: `A` is predicted to come before `B` exactly
when the learned function scores `A` above `B`. -/
def predicted_to_come_before (F : decision_function) (A B : Vec) : Prop :=
  F.eval A > F.eval B

/-- Modelled from the spec: `train` validates the structural precondition
(`P > 0`) and otherwise runs the optimizer and packages the resulting
weight vector. -/
def svm_rank_trainer.train (t : svm_rank_trainer)
    (samples : List ranking_pair) : Except TrainerError decision_function :=
  if is_ranking_problem samples then
    .ok (mkModel (oca_solve t.C t.eps t.nonneg t.max_iterations
      (oracle samples)))
  else .error .precondition_violation

/-- Modelled from the header: the single-query convenience overload
copies the query into a one-element dataset and trains on that. -/
def svm_rank_trainer.train_single (t : svm_rank_trainer)
    (q : ranking_pair) : Except TrainerError decision_function :=
  t.train [q]

/-- The learned weight vector of a trained model. -/
def decision_function.weights (F : decision_function) : Vec :=
  F.basis_vectors.headI

/-! ### Supporting lemmas for the claims -/

theorem solveQP_nonneg (C : ℚ) (planes : List (Vec × ℚ)) :
    ∀ x ∈ solveQP C true planes, 0 ≤ x := by
  intro x hx
  simp only [solveQP, if_true] at hx
  obtain ⟨y, _, rfl⟩ := List.mem_map.mp hx
  exact le_max_right y 0

theorem ocaLoop_nonneg (C eps : ℚ) (oracleF : Vec → ℚ × Vec) (fuel : ℕ)
    (w : Vec) (planes : List (Vec × ℚ)) (hw : ∀ x ∈ w, 0 ≤ x) :
    ∀ x ∈ ocaLoop C eps true oracleF fuel w planes, 0 ≤ x := by
  induction fuel generalizing w planes with
  | zero => simpa [ocaLoop] using hw
  | succ fuel ih =>
    simp only [ocaLoop]
    split
    · exact solveQP_nonneg _ _
    · exact ih _ _ (solveQP_nonneg _ _)

theorem totalPairs_append (s₁ s₂ : List ranking_pair) :
    totalPairs (s₁ ++ s₂) = totalPairs s₁ + totalPairs s₂ := by
  simp [totalPairs]

theorem oracle_self_append (s : List ranking_pair) :
    oracle (s ++ s) = oracle s := by
  funext w
  have hP : (totalPairs (s ++ s) : ℚ) = 2 * (totalPairs s : ℚ) := by
    rw [totalPairs_append]; push_cast; ring
  have h1 : (List.map (queryLossFast w) (s ++ s)).sum /
      (totalPairs (s ++ s) : ℚ) =
      (List.map (queryLossFast w) s).sum / (totalPairs s : ℚ) := by
    rw [List.map_append, List.sum_append, hP]
    rw [show (List.map (queryLossFast w) s).sum +
        (List.map (queryLossFast w) s).sum =
        2 * (List.map (queryLossFast w) s).sum by ring]
    exact mul_div_mul_left _ _ two_ne_zero
  have h2 : vscale (1 / (totalPairs (s ++ s) : ℚ))
      (vsum (List.map (querySubgradFast w) (s ++ s))) =
      vscale (1 / (totalPairs s : ℚ))
        (vsum (List.map (querySubgradFast w) s)) := by
    rw [List.map_append, vsum_append, vadd_self, vscale_vscale, hP]
    congr 1
    rcases eq_or_ne (totalPairs s : ℚ) 0 with h0 | h0
    · rw [h0]; norm_num
    · field_simp
  rw [oracle, oracle, h1, h2]

theorem is_ranking_problem_self_append (s : List ranking_pair) :
    is_ranking_problem (s ++ s) = is_ranking_problem s := by
  simp only [is_ranking_problem, totalPairs_append, decide_eq_decide]
  omega

theorem totalPairs_eq_zero_of (samples : List ranking_pair)
    (h : ∀ q ∈ samples, q.relevant = [] ∨ q.nonrelevant = []) :
    totalPairs samples = 0 := by
  induction samples with
  | nil => rfl
  | cons q qs ih =>
    have hq : queryPairs q = 0 := by
      rcases h q (List.mem_cons_self q qs) with h1 | h1 <;>
        simp [queryPairs, h1]
    have := ih (fun p hp => h p (List.mem_cons_of_mem q hp))
    simp [totalPairs, List.map_cons, List.sum_cons, hq] at this ⊢
    exact this

/-! ### The claims -/

set_option maxRecDepth 20000

/-- The one-query dataset of the end-to-end scenario:
`relevant = [(1,0)]`, `nonrelevant = [(0,1)]`. -/
def example_dataset : List ranking_pair := [⟨[[1, 0]], [[0, 1]]⟩]

/-- Claim C1: on a dataset in which no query has both a nonempty relevant
set and a nonempty nonrelevant set (total pair count `P = 0`), `train`
fails with a precondition-violation error and returns no model. -/
theorem train_fails_without_ranking_pairs (t : svm_rank_trainer)
    (samples : List ranking_pair)
    (h : ∀ q ∈ samples, q.relevant = [] ∨ q.nonrelevant = []) :
    t.train samples = .error .precondition_violation := by
  have hz : totalPairs samples = 0 := totalPairs_eq_zero_of samples h
  simp [svm_rank_trainer.train, is_ranking_problem, hz]

/-- Witness for C1: training on a concrete dataset whose only query has
an empty nonrelevant set fails with precondition-violation. -/
theorem train_fails_without_ranking_pairs_witness :
    default_trainer.train [⟨[[1, 0]], []⟩] = .error .precondition_violation :=
  train_fails_without_ranking_pairs default_trainer [⟨[[1, 0]], []⟩]
    (by
      intro q hq
      rw [List.mem_singleton] at hq
      subst hq
      exact Or.inr rfl)

/-- Claim C2: training a single ranking query is the same operation as
training the one-element dataset containing exactly that query; the
results are identical. -/
theorem train_single_query_eq_singleton_dataset (t : svm_rank_trainer)
    (q : ranking_pair) : t.train_single q = t.train [q] := rfl

/-- Claim C3: supplying `C ≤ 0` to the explicit constructor or to `set_c`,
or `epsilon ≤ 0` to `set_epsilon`, fails immediately with an
invalid-configuration error; no trainer state is produced. -/
theorem invalid_configuration_rejected (t : svm_rank_trainer) (c e : ℚ)
    (hc : c ≤ 0) (he : e ≤ 0) :
    mk_trainer_with_c c = .error .invalid_configuration ∧
      t.set_c c = .error .invalid_configuration ∧
      t.set_epsilon e = .error .invalid_configuration := by
  refine ⟨?_, ?_, ?_⟩ <;>
    simp [mk_trainer_with_c, svm_rank_trainer.set_c,
      svm_rank_trainer.set_epsilon, not_lt.mpr hc, not_lt.mpr he]

/-- Witness for C3: constructing a trainer with `C = 0` (and the setters
at zero) fails with invalid-configuration. -/
theorem invalid_configuration_rejected_witness :
    mk_trainer_with_c 0 = .error .invalid_configuration ∧
      default_trainer.set_c 0 = .error .invalid_configuration ∧
      default_trainer.set_epsilon 0 = .error .invalid_configuration :=
  invalid_configuration_rejected default_trainer 0 0 (le_refl 0) (le_refl 0)

/-- Claim C4: a default-constructed trainer has `C = 1`,
`epsilon = 0.001`, `max_iterations = 10000`, does not learn nonnegative
weights, and is not verbose. -/
theorem default_trainer_configuration :
    default_trainer.get_c = 1 ∧ default_trainer.get_epsilon = 1 / 1000 ∧
      default_trainer.get_max_iterations = 10000 ∧
      default_trainer.learns_nonnegative_weights = false ∧
      default_trainer.is_verbose = false :=
  ⟨rfl, rfl, rfl, rfl, rfl⟩

/-- Claim C5: with nonnegative-weights mode enabled, every entry of the
weight vector of any model returned by `train` is nonnegative. -/
theorem nonnegative_mode_yields_nonnegative_weights (t : svm_rank_trainer)
    (samples : List ranking_pair) (F : decision_function)
    (hmode : t.learns_nonnegative_weights = true)
    (htrain : t.train samples = .ok F) :
    ∀ x ∈ F.weights, 0 ≤ x := by
  rw [svm_rank_trainer.train] at htrain
  by_cases h : is_ranking_problem samples
  · rw [if_pos h] at htrain
    have hF : mkModel (oca_solve t.C t.eps t.nonneg t.max_iterations
        (oracle samples)) = F := by
      exact Except.ok.inj htrain
    have hnn : t.nonneg = true := hmode
    subst hF
    intro x hx
    simp only [mkModel, decision_function.weights, List.headI] at hx
    rw [oca_solve, hnn] at hx
    exact ocaLoop_nonneg t.C t.eps (oracle samples) t.max_iterations [] []
      (by simp) x hx
  · rw [if_neg h] at htrain
    exact absurd htrain (by simp)

/-- Witness for C5: a concrete nonnegative-mode training run returns the
model with weight vector `[1/2, 0]`, whose entries are nonnegative. -/
theorem nonnegative_mode_weights_witness :
    (default_trainer.set_learns_nonnegative_weights true).train
        example_dataset =
      .ok { alpha := [1], basis_vectors := [[1 / 2, 0]], b := 0 } ∧
    ∀ x ∈ (decision_function.weights
        { alpha := [1], basis_vectors := [[1 / 2, 0]], b := 0 }), 0 ≤ x :=
  ⟨by with_unfolding_all rfl,
    nonnegative_mode_yields_nonnegative_weights
      (default_trainer.set_learns_nonnegative_weights true) example_dataset
      { alpha := [1], basis_vectors := [[1 / 2, 0]], b := 0 } rfl
      (by with_unfolding_all rfl)⟩

/-- Claim C6: on the dataset with one query, `relevant = [(1,0)]`,
`nonrelevant = [(0,1)]`, the default configuration trains a model `F`
with `F((1,0)) > F((0,1))`. -/
theorem end_to_end_separable_example :
    ∃ F, default_trainer.train example_dataset = .ok F ∧
      F.eval [1, 0] > F.eval [0, 1] := by
  refine ⟨{ alpha := [1], basis_vectors := [[1 / 2, -1 / 2]], b := 0 },
    by with_unfolding_all rfl, ?_⟩
  show ((1 : ℚ)) * dot [1 / 2, -1 / 2] [1, 0] + 0 - 0 >
    1 * dot [1 / 2, -1 / 2] [0, 1] + 0 - 0
  norm_num [dot]

/-- Claim C7: `be_verbose` and `be_quiet` only toggle progress reporting;
training returns the same result either way. -/
theorem verbosity_does_not_affect_training (t : svm_rank_trainer)
    (samples : List ranking_pair) :
    (t.be_verbose).train samples = (t.be_quiet).train samples := by
  cases t
  rfl

/-- Claim C8: the regularization constant is normalized by `1/P`, so
doubling the dataset (duplicating every query) leaves the trained model
unchanged. -/
theorem c_normalization_dataset_doubling_invariant (t : svm_rank_trainer)
    (samples : List ranking_pair) :
    t.train (samples ++ samples) = t.train samples := by
  rw [svm_rank_trainer.train, svm_rank_trainer.train,
    is_ranking_problem_self_append, oracle_self_append]

/-- Claim C9: over a whole dataset the sort-based oracle produces exactly
the same aggregate loss, violation count and subgradient (entrywise, since
vectors of different physical lengths pad with zeros) as the brute-force
pairwise computation, and spends at most `2·N·(⌈log₂ N⌉ + 1)` score
comparisons, `N` the total vector count. -/
theorem oracle_fast_equals_brute_and_cost (samples : List ranking_pair)
    (w : Vec) :
    (samples.map (queryLossFast w)).sum =
        (samples.map (queryLossBrute w)).sum ∧
      (samples.map (queryViolFast w)).sum =
        (samples.map (queryViolBrute w)).sum ∧
      (∀ i, entry (vsum (samples.map (querySubgradFast w))) i =
        entry (vsum (samples.map (querySubgradBrute w))) i) ∧
      oracleCost samples w ≤
        2 * totalVectors samples * (Nat.clog 2 (totalVectors samples) + 1) := by
  refine ⟨?_, ?_, ?_, oracleCost_le samples w⟩
  · exact congrArg List.sum
      (List.map_congr_left fun q _ => queryLossFast_eq_brute w q)
  · exact congrArg List.sum
      (List.map_congr_left fun q _ => queryViolFast_eq_brute w q)
  · intro i
    rw [entry_vsum, entry_vsum]
    exact congrArg List.sum
      (List.map_congr_left fun q _ => querySubgrad_entry_eq w q i)

/-- Claim C10: every model returned by `train` has `alpha = [1]` and a
single basis vector, scoring is a single dot product with the learned
weight vector, and `A` is predicted to come before `B` iff
`F(A) > F(B)`. -/
theorem trained_function_is_single_dot_product (t : svm_rank_trainer)
    (samples : List ranking_pair) (F : decision_function)
    (htrain : t.train samples = .ok F) :
    F.alpha.length = 1 ∧ F.basis_vectors.length = 1 ∧ F.alpha.headI = 1 ∧
      (∀ x, F.eval x = dot F.weights x) ∧
      (∀ A B, predicted_to_come_before F A B ↔ F.eval A > F.eval B) := by
  rw [svm_rank_trainer.train] at htrain
  by_cases h : is_ranking_problem samples
  · rw [if_pos h] at htrain
    have hF : mkModel (oca_solve t.C t.eps t.nonneg t.max_iterations
        (oracle samples)) = F := Except.ok.inj htrain
    subst hF
    refine ⟨rfl, rfl, rfl, ?_, fun A B => Iff.rfl⟩
    intro x
    simp [mkModel, decision_function.eval, decision_function.weights]
  · rw [if_neg h] at htrain
    exact absurd htrain (by simp)

/-- Witness for C10: the concrete model of the end-to-end dataset has the
promised shape. -/
theorem trained_function_shape_witness :
    (({ alpha := [1], basis_vectors := [[1 / 2, -1 / 2]], b := 0 } :
        decision_function).alpha.length = 1 ∧
      ({ alpha := [1], basis_vectors := [[1 / 2, -1 / 2]], b := 0 } :
        decision_function).basis_vectors.length = 1 ∧
      ({ alpha := [1], basis_vectors := [[1 / 2, -1 / 2]], b := 0 } :
        decision_function).alpha.headI = 1 ∧
      (∀ x, ({ alpha := [1], basis_vectors := [[1 / 2, -1 / 2]], b := 0 } :
        decision_function).eval x =
          dot ({ alpha := [1], basis_vectors := [[1 / 2, -1 / 2]], b := 0 } :
            decision_function).weights x) ∧
      (∀ A B, predicted_to_come_before
          { alpha := [1], basis_vectors := [[1 / 2, -1 / 2]], b := 0 } A B ↔
        ({ alpha := [1], basis_vectors := [[1 / 2, -1 / 2]], b := 0 } :
          decision_function).eval A >
          ({ alpha := [1], basis_vectors := [[1 / 2, -1 / 2]], b := 0 } :
            decision_function).eval B)) :=
  trained_function_is_single_dot_product default_trainer example_dataset
    { alpha := [1], basis_vectors := [[1 / 2, -1 / 2]], b := 0 }
    (by with_unfolding_all rfl)

end RankSVM
